import Mathlib

/-!
Verification of the statement-import component of project_doubloon:
the amount parser (`_parse_amount_smart`), the header locator
(`_read_with_header_detection`) and the row filter (`parse`) from
`src/providers/intesa_excel.py`.

Strings are modelled as `List Char` wrapped in `String`; Python floats are
modelled exactly: finite values as rationals, plus symbolic infinity / NaN
(`PyVal`).  `float(str)` is modelled on the ASCII decimal grammar with
optional exponent and the special words inf / infinity / nan; PEP-515
underscores and non-ASCII digits are outside the model.
-/

namespace Doubloon

/-- Python whitespace (`str.strip`, and the trimming done by `float`) for the
character set relevant here: ASCII whitespace and the no-break space U+00A0. -/
def pyIsSpace (c : Char) : Bool :=
  c = ' ' || c = '\t' || c = '\n' || c = '\r' || c = '\x0b' || c = '\x0c' || c = ' '

/-- Python `str.strip()` on a character list. -/
def pyStripList (l : List Char) : List Char :=
  ((l.dropWhile pyIsSpace).reverse.dropWhile pyIsSpace).reverse

/-- Python `str.lower()` (ASCII range, the only one exercised here). -/
def pyLowerList (l : List Char) : List Char := l.map Char.toLower

def pyLower (s : String) : String := ⟨pyLowerList s.toList⟩

def pyStrip (s : String) : String := ⟨pyStripList s.toList⟩

/-- Result of Python `float`: a finite rational, a signed infinity
(the flag records a leading minus) or NaN. -/
inductive PyVal where
  | finite : ℚ → PyVal
  | infty : Bool → PyVal
  | nan : PyVal
deriving DecidableEq

/-- Big-endian decimal digit characters to a natural number. -/
def digitsToNat (l : List Char) : ℕ :=
  l.foldl (fun n c => 10 * n + (c.toNat - 48)) 0

/-- Syntactic form of an accepted `float` input: a decimal literal (sign,
integer-part value, fraction value, fraction length, exponent sign and
value), a signed infinity, or NaN. -/
inductive PySyn where
  | num : Bool → ℕ → ℕ → ℕ → Bool → ℕ → PySyn
  | infty : Bool → PySyn
  | nan : PySyn
deriving DecidableEq

/-- The decimal-literal part of CPython `float(str)` after sign removal:
`digits [. digits] [(e|E) [sign] digits]`, at least one mantissa digit. -/
def parseDecSyn (neg : Bool) (l : List Char) : Option PySyn :=
  let ip := l.takeWhile Char.isDigit
  let r1 := l.dropWhile Char.isDigit
  let fp := match r1 with
    | '.' :: r => r.takeWhile Char.isDigit
    | _ => []
  let r2 := match r1 with
    | '.' :: r => r.dropWhile Char.isDigit
    | _ => r1
  if ip = [] ∧ fp = [] then none
  else
    match r2 with
    | [] => some (PySyn.num neg (digitsToNat ip) (digitsToNat fp) fp.length false 0)
    | 'e' :: r3 => expPart neg ip fp r3
    | 'E' :: r3 => expPart neg ip fp r3
    | _ => none
where
  expPart (neg : Bool) (ip fp r3 : List Char) : Option PySyn :=
    let eneg := r3.head? = some '-'
    let r4 := if r3.head? = some '+' ∨ r3.head? = some '-' then r3.tail else r3
    let ed := r4.takeWhile Char.isDigit
    if ed = [] ∨ r4.dropWhile Char.isDigit ≠ [] then none
    else some (PySyn.num neg (digitsToNat ip) (digitsToNat fp) fp.length eneg (digitsToNat ed))

/-- Syntactic model of CPython `float(str)`: trim whitespace, one optional
sign, then inf / infinity / nan (case-insensitive) or a decimal literal. -/
def pyFloatSyn (s : String) : Option PySyn :=
  let t := pyStripList s.toList
  let neg := t.head? = some '-'
  let t1 := if t.head? = some '+' ∨ t.head? = some '-' then t.tail else t
  let low := pyLowerList t1
  if low = "inf".toList ∨ low = "infinity".toList then some (PySyn.infty neg)
  else if low = "nan".toList then some PySyn.nan
  else parseDecSyn neg t1

/-- Numeric value of an accepted `float` input. -/
def interpSyn : PySyn → PyVal
  | PySyn.num neg i f k eneg ev =>
    let m : ℚ := (i : ℚ) + (f : ℚ) / (10 : ℚ) ^ k
    let v : ℚ := if eneg then m / (10 : ℚ) ^ ev else m * (10 : ℚ) ^ ev
    PyVal.finite (if neg then -v else v)
  | PySyn.infty b => PyVal.infty b
  | PySyn.nan => PyVal.nan

/-- Model of CPython `float(str)`. -/
def pyFloat (s : String) : Option PyVal := (pyFloatSyn s).map interpSyn

/-- `sign * value` from the final line of `_parse_amount_smart`. -/
def pyMulSign (sg : ℤ) : PyVal → PyVal
  | PyVal.finite q => PyVal.finite (sg * q)
  | PyVal.infty b => PyVal.infty (if sg < 0 then !b else b)
  | PyVal.nan => PyVal.nan

/-- A separator character in the sense of `ch in ",."`. -/
def isSep (c : Char) : Bool := c = '.' || c = ','

/-- Index of the last occurrence of `c` (Python `[i for i,ch in enumerate(s)
if ch == c][-1]`), `none` when absent. -/
def lastIdxOf (c : Char) : List Char → Option ℕ
  | [] => none
  | a :: r =>
    match lastIdxOf c r with
    | some j => some (j + 1)
    | none => if a = c then some 0 else none

/-- Python `str.replace(a, b)` for single characters. -/
def replaceChar (a b : Char) (l : List Char) : List Char :=
  l.map fun c => if c = a then b else c

/-- Both-separator branch: keep every character except separators whose index
differs from `keep` (the loop building `cleaned`). -/
def removeOtherSeps (keep : ℕ) (l : List Char) : List Char :=
  (l.enum.filter fun p => !isSep p.2 || p.1 == keep).map Prod.snd

/-- Same-separator branch with several occurrences: drop `sep` everywhere
except at index `keep`. -/
def removeOtherChar (sep : Char) (keep : ℕ) (l : List Char) : List Char :=
  (l.enum.filter fun p => !(p.2 == sep) || p.1 == keep).map Prod.snd

/-- The `only one kind of separator` branch of `_parse_amount_smart`;
`lastPos` is the last occurrence of `sep` in `l`. -/
def singleSepKind (sep : Char) (lastPos : ℕ) (l : List Char) : List Char :=
  if 1 < l.count sep then
    let cleaned := removeOtherChar sep lastPos l
    if sep = ',' then replaceChar ',' '.' cleaned else cleaned
  else
    let digitsAfter := l.length - lastPos - 1
    if 1 ≤ digitsAfter ∧ digitsAfter ≤ 3 then
      if sep = ',' then replaceChar ',' '.' l else l
    else
      l.filter fun c => !(c == sep)

/-- The separator-analysis block of `_parse_amount_smart`, producing `s2`. -/
def normalizeSeparators (l : List Char) : List Char :=
  match lastIdxOf '.' l, lastIdxOf ',' l with
  | some lastDot, some lastComma =>
    let decIdx := if lastDot > lastComma then lastDot else lastComma
    let decChar := l.getD decIdx ' '
    let cleaned := removeOtherSeps decIdx l
    if decChar = ',' then replaceChar ',' '.' cleaned else cleaned
  | some lastDot, none => singleSepKind '.' lastDot l
  | none, some lastComma => singleSepKind ',' lastComma l
  | none, none => l

/-- The sign-detection block: one optional leading `+`, then one optional
leading `-` (negates), then one optional trailing `-` (negates again). -/
def stripSigns (l : List Char) : ℤ × List Char :=
  let l1 := if l.head? = some '+' then l.tail else l
  let p2 := if l1.head? = some '-' then ((-1 : ℤ), l1.tail) else ((1 : ℤ), l1)
  if p2.2.getLast? = some '-' then (-p2.1, p2.2.dropLast) else p2

/-- Keep characters other than space and no-break space
(`s.replace(" ", "").replace(" ", "")`). -/
def notSpaceNbsp (c : Char) : Bool := !(c = ' ' || c = ' ')

def preStripped (s : String) : List Char := pyStripList s.toList

/-- The early bail-out `s == "" or s.lower() == "nan"`. -/
def earlyNull (s : String) : Bool :=
  preStripped s == [] || pyLowerList (preStripped s) == "nan".toList

def signAndRest (s : String) : ℤ × List Char :=
  stripSigns ((preStripped s).filter notSpaceNbsp)

/-- The fully normalized numeric text `s2` handed to `float`. -/
def normalizedOf (s : String) : String :=
  ⟨normalizeSeparators (signAndRest s).2⟩

/-- `_parse_amount_smart` from `src/providers/intesa_excel.py`. -/
def parse_amount_smart (s : String) : Option PyVal :=
  if earlyNull s then none
  else (pyFloat (normalizedOf s)).map (pyMulSign (signAndRest s).1)

/-! ## Header locator (`_read_with_header_detection`) -/

def expected_tokens : List String :=
  ["data", "operazione", "dettagli", "conto o carta",
   "contabilizzazione", "categoria", "valuta", "importo"]

/-- `t` is an initial segment of `s`. -/
def leadsList (t s : List Char) : Bool :=
  match t, s with
  | [], _ => true
  | _ :: _, [] => false
  | a :: t', b :: s' => a == b && leadsList t' s'

/-- Python `t in s`: `t` occurs contiguously inside `s`. -/
def occursIn (t s : List Char) : Bool :=
  match s with
  | [] => t == []
  | _ :: s' => leadsList t s || occursIn t s'

/-- `str(v).strip().lower()` applied to a cell. -/
def cellNorm (v : String) : String := pyLower (pyStrip v)

/-- `any(tok == v or tok in v for v in row_vals)`. -/
def tokenHit (tok : String) (row : List String) : Bool :=
  row.any fun v => tok == cellNorm v || occursIn tok.toList (cellNorm v).toList

/-- Number of distinct expected tokens matched by a row. -/
def matchCount (row : List String) : ℕ :=
  (expected_tokens.filter fun tok => tokenHit tok row).length

/-- `for i in range(min(100, len(df)))`, returning the first row index with
at least 3 token matches. -/
def scanHeaderAux : ℕ → List (List String) → Option ℕ
  | _, [] => none
  | i, row :: rest =>
    if i < 100 then
      if 3 ≤ matchCount row then some i else scanHeaderAux (i + 1) rest
    else none

/-- Header-row index chosen by `_read_with_header_detection` for one sheet:
first matching row, else row 19 when it exists (`header=19` raises in pandas
when the sheet has fewer than 20 rows), else row 0. -/
def locateHeader (sheet : List (List String)) : ℕ :=
  match scanHeaderAux 0 sheet with
  | some i => i
  | none => if 20 ≤ sheet.length then 19 else 0

/-! ## Row records (`parse`) -/

/-- One data row after column renaming; `none` models a missing cell whose
stringification would be `"nan"` (for the amount) or a missing key
(for the defaulted `row.get(…, "")` calls). -/
structure RawRow where
  dataCell : Option String
  operazione : Option String
  dettagli : Option String
  conto : Option String
  valuta : Option String
  categoria : Option String
  importo : Option String
deriving DecidableEq

structure TxRecord where
  transaction_date : Option String
  amount : Option PyVal
  amount_raw : Option String
  description : String
  detail : String
  account : String
  currency : String
  category_hint : String
deriving DecidableEq

/-- Build the transaction dictionary for one row.  `toIso` abstracts
`pd.to_datetime(·, errors="coerce").date().isoformat()`; a missing amount
cell stringifies to `"nan"` before being fed to the parser. -/
def buildRecord (toIso : String → String) (r : RawRow) : TxRecord where
  transaction_date := r.dataCell.map toIso
  amount := parse_amount_smart (r.importo.getD "nan")
  amount_raw := r.importo
  description := pyStrip (r.operazione.getD "")
  detail := pyStrip (r.dettagli.getD "")
  account := pyStrip (r.conto.getD "")
  currency := pyStrip (r.valuta.getD "")
  category_hint := pyStrip (r.categoria.getD "")

/-- The yield guard `if data["transaction_date"] and data["amount"] is not
None and data["description"]`. -/
def keepRecord (t : TxRecord) : Bool :=
  (match t.transaction_date with
   | some d => !(d == "")
   | none => false)
  && t.amount.isSome && !(t.description == "")

/-- Records emitted by `parse`, in row order. -/
def parseRows (toIso : String → String) (rows : List RawRow) : List TxRecord :=
  (rows.map (buildRecord toIso)).filter keepRecord

/-! ## Spec-side definitions (stated from the claims, for refinement) -/

/-- Claim C1's description of the both-separators transform: the separator
whose rightmost occurrence has the larger index survives as `.`, every other
separator occurrence is deleted, other characters are kept. -/
def bothSepSpec (l : List Char) : List Char :=
  let keep := max ((lastIdxOf '.' l).getD 0) ((lastIdxOf ',' l).getD 0)
  l.enum.filterMap fun p =>
    if isSep p.2 then (if p.1 = keep then some '.' else none) else some p.2

def dropLeadPlus (l : List Char) : List Char := if l.head? = some '+' then l.tail else l

def dropLeadMinus (l : List Char) : List Char := if l.head? = some '-' then l.tail else l

def dropTrailMinus (l : List Char) : List Char :=
  if l.getLast? = some '-' then l.dropLast else l

/-- Claim C3's leading sign: `-1` exactly when, after the optional `+` is
dropped, the text starts with `-`. -/
def leadSign (l : List Char) : ℤ := if (dropLeadPlus l).head? = some '-' then -1 else 1

/-- Claim C3's trailing sign: `-1` exactly when, after the leading signs are
consumed, the text ends with `-`. -/
def trailSign (l : List Char) : ℤ :=
  if (dropLeadMinus (dropLeadPlus l)).getLast? = some '-' then -1 else 1

/-- Claim C10's description of the text left after sign consumption. -/
def signRemainder (l : List Char) : List Char :=
  dropTrailMinus (dropLeadMinus (dropLeadPlus l))

/-- Little-endian base-10 digits, with structural fuel so that it reduces
in the kernel. -/
def digitsLE : ℕ → ℕ → List ℕ
  | 0, _ => []
  | fuel + 1, n => if n = 0 then [] else n % 10 :: digitsLE fuel (n / 10)

/-- Decimal digit characters of `n`, big-endian. -/
def natToDecChars (n : ℕ) : List Char :=
  if n = 0 then ['0']
  else (digitsLE n n).reverse.map fun d => Char.ofNat (48 + d)

/-- Fixed-point digit string for the magnitude `n / 10 ^ k`, with an optional
leading minus and `.` as decimal separator. -/
def renderNatFixed (neg : Bool) (n k : ℕ) : String :=
  let ipart := n / 10 ^ k
  let fpart := n % 10 ^ k
  let fchars := List.replicate (k - (natToDecChars fpart).length) '0' ++ natToDecChars fpart
  ⟨(if neg then ['-'] else []) ++ natToDecChars ipart ++ '.' :: fchars⟩

/-- Fixed-point rendering of a rational with exactly `k` fractional digits
(the model of `str(float)` for values whose shortest repr is fixed-point). -/
def renderFixed (q : ℚ) (k : ℕ) : String :=
  renderNatFixed (decide (q < 0)) (⌊|q| * (10 : ℚ) ^ k⌋).toNat k

end Doubloon

namespace Doubloon

/-! ## Evaluation lemmas for concrete inputs -/

theorem parse_eval_some {s : String} (sg : ℤ) (rest : List Char) (syn : PySyn)
    (h1 : earlyNull s = false) (h2 : signAndRest s = (sg, rest))
    (h3 : pyFloatSyn (normalizedOf s) = some syn) :
    parse_amount_smart s = some (pyMulSign sg (interpSyn syn)) := by
  simp [parse_amount_smart, pyFloat, h1, h2, h3]

theorem parse_eval_none_early {s : String} (h : earlyNull s = true) :
    parse_amount_smart s = none := by
  simp [parse_amount_smart, h]

theorem parse_eval_none_float {s : String}
    (h1 : earlyNull s = false) (h3 : pyFloatSyn (normalizedOf s) = none) :
    parse_amount_smart s = none := by
  simp [parse_amount_smart, pyFloat, h1, h3]

/-! ## Helper lemmas about `lastIdxOf` and the separator rewriting -/

theorem lastIdxOf_eq_none {c : Char} :
    ∀ {l : List Char}, lastIdxOf c l = none ↔ c ∉ l := by
  intro l
  induction l with
  | nil => simp [lastIdxOf]
  | cons a r ih =>
    unfold lastIdxOf
    cases hr : lastIdxOf c r with
    | some j =>
      have hc : c ∈ r := by
        by_contra hn
        rw [ih.mpr hn] at hr
        exact Option.noConfusion hr
      simp [hc]
    | none =>
      have hc : c ∉ r := ih.mp hr
      by_cases hac : a = c
      · subst hac
        simp
      · have hca : c ≠ a := fun h => hac h.symm
        simp [hac, hc, hca]

theorem mem_lastIdxOf {c : Char} {l : List Char} (h : c ∈ l) :
    ∃ j, lastIdxOf c l = some j := by
  cases hl : lastIdxOf c l with
  | some j => exact ⟨j, rfl⟩
  | none => exact absurd h (lastIdxOf_eq_none.mp hl)

theorem lastIdxOf_getD {c : Char} :
    ∀ {l : List Char} {j : ℕ}, lastIdxOf c l = some j → l.getD j ' ' = c := by
  intro l
  induction l with
  | nil => intro j h; exact Option.noConfusion h
  | cons a r ih =>
    intro j h
    unfold lastIdxOf at h
    cases hr : lastIdxOf c r with
    | some j' =>
      rw [hr] at h
      injection h with h
      subst h
      simpa using ih hr
    | none =>
      rw [hr] at h
      by_cases hac : a = c
      · simp [hac] at h
        subst h
        simpa using hac
      · simp [hac] at h

theorem sep_to_dot {c : Char} (h : isSep c = true) : (if c = ',' then '.' else c) = '.' := by
  rcases Bool.or_eq_true .. |>.mp h with h' | h' <;>
    simp only [decide_eq_true_eq] at h' <;> simp [h']

theorem nonsep_keep {c : Char} (h : ¬ isSep c = true) : (if c = ',' then '.' else c) = c := by
  have : ¬ c = ',' := fun hc => h (by simp [isSep, hc])
  simp [this]

theorem replaceChar_cons (a b x : Char) (xs : List Char) :
    replaceChar a b (x :: xs) = (if x = a then b else x) :: replaceChar a b xs := rfl

/-- Core of the C1 refinement: on any indexed character list, the code's
"keep only the separator at `keep`, then send `,` to `.`" pipeline equals the
spec's single-pass description. -/
theorem replace_filter_eq_filterMap (keep : ℕ) :
    ∀ L : List (ℕ × Char),
      replaceChar ',' '.' ((L.filter fun p => !isSep p.2 || p.1 == keep).map Prod.snd)
        = L.filterMap
            (fun p => if isSep p.2 then (if p.1 = keep then some '.' else none) else some p.2) := by
  intro L
  induction L with
  | nil => rfl
  | cons a t ih =>
    rcases a with ⟨i, c⟩
    by_cases hs : isSep c = true
    · by_cases hk : i = keep
      · rw [List.filter_cons_of_pos (by simp [hs, hk]), List.map_cons, replaceChar_cons,
          sep_to_dot hs, ih, @List.filterMap_cons_some _ _ _ _ _ '.' (by simp [hs, hk])]
      · rw [List.filter_cons_of_neg (by simp [hs, hk]), ih,
          List.filterMap_cons_none (by simp [hs, hk])]
    · have hs' : isSep c = false := by
        cases hb : isSep c
        · rfl
        · exact absurd hb hs
      rw [List.filter_cons_of_pos (by simp [hs']), List.map_cons, replaceChar_cons,
        nonsep_keep hs, ih, @List.filterMap_cons_some _ _ _ _ _ c (by simp [hs'])]

end Doubloon

namespace Doubloon

theorem replaceChar_of_not_mem {a b : Char} :
    ∀ {m : List Char}, a ∉ m → replaceChar a b m = m := by
  intro m
  induction m with
  | nil => intro _; rfl
  | cons x xs ih =>
    intro h
    rw [replaceChar_cons, if_neg (fun hx => h (by rw [← hx]; exact List.mem_cons_self x xs)),
      ih (fun hx => h (List.mem_cons_of_mem x hx))]

theorem getD_of_mem_enum {l : List Char} {i : ℕ} {c : Char}
    (h : (i, c) ∈ l.enum) : l.getD i ' ' = c := by
  have := List.mem_enum_iff_getElem?.mp h
  simp only at this
  rw [List.getD_eq_getElem?_getD, this, Option.getD_some]

/-- Claim C1: with both separators present, the rightmost separator
occurrence survives as the decimal dot and every other separator occurrence
is deleted; the two mixed-format examples and the thousands example parse as
stated. -/
theorem c1_both_separators :
    (∀ l : List Char, '.' ∈ l → ',' ∈ l → normalizeSeparators l = bothSepSpec l)
    ∧ parse_amount_smart "1.234,56" = some (PyVal.finite (1234.56 : ℚ))
    ∧ parse_amount_smart "1,234.56" = some (PyVal.finite (1234.56 : ℚ))
    ∧ parse_amount_smart "2.500,00" = some (PyVal.finite (2500 : ℚ)) := by
  refine ⟨?_, ?_, ?_, ?_⟩
  · intro l hd hc
    obtain ⟨ld, hld⟩ := mem_lastIdxOf hd
    obtain ⟨lc, hlc⟩ := mem_lastIdxOf hc
    simp only [normalizeSeparators, bothSepSpec, hld, hlc, Option.getD_some]
    have hkm : (if ld > lc then ld else lc) = max ld lc := by
      by_cases h : ld > lc
      · rw [if_pos h, Nat.max_eq_left (Nat.le_of_lt h)]
      · rw [if_neg h, Nat.max_eq_right (Nat.le_of_not_lt h)]
    rw [hkm]
    by_cases hcomma : l.getD (max ld lc) ' ' = ','
    · rw [if_pos hcomma]
      exact replace_filter_eq_filterMap (max ld lc) l.enum
    · rw [if_neg hcomma]
      have hgt : ld > lc := by
        by_contra hle
        exact hcomma (by rw [max_eq_right (by omega)]; exact lastIdxOf_getD hlc)
      have hdot : l.getD (max ld lc) ' ' = '.' := by
        rw [max_eq_left (by omega)]
        exact lastIdxOf_getD hld
      rw [← replace_filter_eq_filterMap (max ld lc) l.enum]
      refine (replaceChar_of_not_mem ?_).symm
      intro hmem
      rcases List.mem_map.mp hmem with ⟨p, hpmem, hsnd⟩
      rcases List.mem_filter.mp hpmem with ⟨henum, hcond⟩
      rcases p with ⟨i, c⟩
      simp only at hsnd
      subst hsnd
      have : (i == max ld lc) = true := by
        rcases Bool.or_eq_true .. |>.mp hcond with hbad | hgood
        · simp [isSep] at hbad
        · exact hgood
      have hi : i = max ld lc := by simpa using this
      subst hi
      exact hcomma (getD_of_mem_enum henum)
  · rw [parse_eval_some 1 ("1.234,56".toList) (PySyn.num false 1234 56 2 false 0) (by decide) (by decide) (by decide)]
    norm_num [pyMulSign, interpSyn]
  · rw [parse_eval_some 1 ("1,234.56".toList) (PySyn.num false 1234 56 2 false 0) (by decide) (by decide) (by decide)]
    norm_num [pyMulSign, interpSyn]
  · rw [parse_eval_some 1 ("2.500,00".toList) (PySyn.num false 2500 0 2 false 0) (by decide) (by decide) (by decide)]
    norm_num [pyMulSign, interpSyn]

/-- Witness for C1 at a concrete input with both separators. -/
theorem c1_both_separators_witness :
    normalizeSeparators "9.87,6".toList = bothSepSpec "9.87,6".toList :=
  c1_both_separators.1 "9.87,6".toList (by decide) (by decide)


theorem pyFloat_eval {s : String} (syn : PySyn) (h : pyFloatSyn s = some syn) :
    pyFloat s = some (interpSyn syn) := by
  simp [pyFloat, h]

/-- Counterexample to claim C2: in "1.23e5" the single separator is followed
by 3 digit characters (and 4 characters in total), yet the parser deletes it
as a thousands separator, yielding 12300000 instead of the 123000 that
treating it as a decimal point (the string unchanged) would give. -/
theorem c2_counterexample :
    ("1.23e5".toList.count '.' = 1 ∧ "1.23e5".toList.count ',' = 0)
    ∧ ("1.23e5".toList.drop 2).countP (fun c => c.isDigit) = 3
    ∧ lastIdxOf '.' "1.23e5".toList = some 1
    ∧ parse_amount_smart "1.23e5" = some (PyVal.finite (12300000 : ℚ))
    ∧ pyFloat "1.23e5" = some (PyVal.finite (123000 : ℚ))
    ∧ PyVal.finite (12300000 : ℚ) ≠ PyVal.finite (123000 : ℚ) := by
  refine ⟨⟨by decide, by decide⟩, by decide, by decide, ?_, ?_, ?_⟩
  · rw [parse_eval_some 1 ("1.23e5".toList) (PySyn.num false 123 0 0 false 5) (by decide) (by decide) (by decide)]
    norm_num [pyMulSign, interpSyn]
  · rw [pyFloat_eval (PySyn.num false 1 23 2 false 5) (by decide)]
    norm_num [interpSyn]
  · intro h
    have := PyVal.finite.inj h
    norm_num at this

/-- Claim C2 as amended: with exactly one occurrence of exactly one
separator, the occurrence is kept as a decimal point when 1 to 3
*characters* (not digits) follow it, comma becoming a dot, and is deleted
otherwise; the two stated examples hold. -/
theorem c2_single_separator :
    (∀ l : List Char, ∀ j : ℕ, l.count '.' = 1 → l.count ',' = 0 →
        lastIdxOf '.' l = some j →
        normalizeSeparators l =
          (if 1 ≤ l.length - j - 1 ∧ l.length - j - 1 ≤ 3 then l
           else l.filter fun c => !(c == '.')))
    ∧ (∀ l : List Char, ∀ j : ℕ, l.count ',' = 1 → l.count '.' = 0 →
        lastIdxOf ',' l = some j →
        normalizeSeparators l =
          (if 1 ≤ l.length - j - 1 ∧ l.length - j - 1 ≤ 3 then replaceChar ',' '.' l
           else l.filter fun c => !(c == ',')))
    ∧ parse_amount_smart "12.3456" = some (PyVal.finite (123456 : ℚ))
    ∧ parse_amount_smart "2500,00" = some (PyVal.finite (2500 : ℚ)) := by
  refine ⟨?_, ?_, ?_, ?_⟩
  · intro l j h1 h0 hj
    have hnc : lastIdxOf ',' l = none :=
      lastIdxOf_eq_none.mpr (List.count_eq_zero.mp h0)
    simp only [normalizeSeparators, hj, hnc, singleSepKind, h1]
    norm_num
    split
    · rw [if_neg (show ¬ ('.' : Char) = ',' from by decide)]
    · rfl
  · intro l j h1 h0 hj
    have hnd : lastIdxOf '.' l = none :=
      lastIdxOf_eq_none.mpr (List.count_eq_zero.mp h0)
    simp only [normalizeSeparators, hj, hnd, singleSepKind, h1]
    norm_num
  · rw [parse_eval_some 1 ("12.3456".toList) (PySyn.num false 123456 0 0 false 0) (by decide) (by decide) (by decide)]
    norm_num [pyMulSign, interpSyn]
  · rw [parse_eval_some 1 ("2500,00".toList) (PySyn.num false 2500 0 2 false 0) (by decide) (by decide) (by decide)]
    norm_num [pyMulSign, interpSyn]

/-- Witness for the amended C2 at concrete single-separator inputs. -/
theorem c2_single_separator_witness :
    normalizeSeparators "12.3456".toList =
      (if 1 ≤ "12.3456".toList.length - 2 - 1 ∧ "12.3456".toList.length - 2 - 1 ≤ 3
       then "12.3456".toList
       else "12.3456".toList.filter fun c => !(c == '.')) :=
  c2_single_separator.1 "12.3456".toList 2 (by decide) (by decide) (by decide)


/-- Claim C3: the sign is the product of a leading-sign factor (a dropped
`+`, a negating `-`) and an independent trailing-minus factor, and the three
quoted examples (including the double-negation quirk) parse as stated. -/
theorem c3_sign_composition :
    (∀ l : List Char, (stripSigns l).1 = leadSign l * trailSign l)
    ∧ parse_amount_smart "-87,45" = some (PyVal.finite (-87.45 : ℚ))
    ∧ parse_amount_smart "87,45-" = some (PyVal.finite (-87.45 : ℚ))
    ∧ parse_amount_smart "-87,45-" = some (PyVal.finite (87.45 : ℚ)) := by
  refine ⟨?_, ?_, ?_, ?_⟩
  · intro l
    simp only [stripSigns, leadSign, trailSign, dropLeadPlus, dropLeadMinus]
    split_ifs <;> norm_num
  · rw [parse_eval_some (-1) ("87,45".toList) (PySyn.num false 87 45 2 false 0) (by decide) (by decide) (by decide)]
    norm_num [pyMulSign, interpSyn]
  · rw [parse_eval_some (-1) ("87,45".toList) (PySyn.num false 87 45 2 false 0) (by decide) (by decide) (by decide)]
    norm_num [pyMulSign, interpSyn]
  · rw [parse_eval_some 1 ("87,45".toList) (PySyn.num false 87 45 2 false 0) (by decide) (by decide) (by decide)]
    norm_num [pyMulSign, interpSyn]

/-- Claim C10: sign stripping consumes at most one leading `+`, then at most
one leading `-`, then at most one trailing `-`; any further sign character
stays in the numeric text, so "--5" parses to +5 (not null, not -5). -/
theorem c10_extra_sign_chars :
    (∀ l : List Char, (stripSigns l).2 = signRemainder l)
    ∧ parse_amount_smart "--5" = some (PyVal.finite (5 : ℚ))
    ∧ parse_amount_smart "--5" ≠ none
    ∧ parse_amount_smart "--5" ≠ some (PyVal.finite (-5 : ℚ)) := by
  have h5 : parse_amount_smart "--5" = some (PyVal.finite (5 : ℚ)) := by
    rw [parse_eval_some (-1) ("-5".toList) (PySyn.num true 5 0 0 false 0) (by decide) (by decide) (by decide)]
    norm_num [pyMulSign, interpSyn]
  refine ⟨?_, h5, ?_, ?_⟩
  · intro l
    simp only [stripSigns, signRemainder, dropLeadPlus, dropLeadMinus, dropTrailMinus]
    split_ifs <;> rfl
  · rw [h5]
    exact Option.noConfusion
  · rw [h5]
    intro h
    have := PyVal.finite.inj (Option.some.inj h)
    norm_num at this


theorem strip_nil_of_all_space {x : List Char} (h : ∀ c ∈ x, pyIsSpace c = true) :
    pyStripList x = [] := by
  have h1 : x.dropWhile pyIsSpace = [] := List.dropWhile_eq_nil_iff.mpr h
  simp [pyStripList, h1]

theorem strip_of_no_space {x : List Char} (h : ∀ c ∈ x, pyIsSpace c = false) :
    pyStripList x = x := by
  have front : ∀ y : List Char, (∀ c ∈ y, pyIsSpace c = false) → y.dropWhile pyIsSpace = y := by
    intro y hy
    cases y with
    | nil => rfl
    | cons a t =>
      rw [List.dropWhile_cons, if_neg]
      rw [hy a (List.mem_cons_self a t)]
      simp
  rw [pyStripList, front x h, front x.reverse (fun c hc => h c (List.mem_reverse.mp hc)),
    List.reverse_reverse]

theorem space_toLower_self {c : Char} (h : pyIsSpace c = true) : Char.toLower c = c := by
  rcases Bool.or_eq_true .. |>.mp h with h' | h'
  · rcases Bool.or_eq_true .. |>.mp h' with h'' | h''
    · rcases Bool.or_eq_true .. |>.mp h'' with h3 | h3
      · rcases Bool.or_eq_true .. |>.mp h3 with h4 | h4
        · rcases Bool.or_eq_true .. |>.mp h4 with h5 | h5
          · rcases Bool.or_eq_true .. |>.mp h5 with h6 | h6 <;>
              simp only [decide_eq_true_eq] at h6 <;> subst h6 <;> decide
          · simp only [decide_eq_true_eq] at h5; subst h5; decide
        · simp only [decide_eq_true_eq] at h4; subst h4; decide
      · simp only [decide_eq_true_eq] at h3; subst h3; decide
    · simp only [decide_eq_true_eq] at h''; subst h''; decide
  · simp only [decide_eq_true_eq] at h'; subst h'; decide

/-- Claim C4: the parser is total with value-or-null results: the empty
string, whitespace-only strings and "nan" in any letter case give null, and
a failing final float conversion gives null. -/
theorem c4_null_cases :
    parse_amount_smart "" = none
    ∧ (∀ s : String, s ≠ "" → (∀ c ∈ s.toList, pyIsSpace c = true) →
        parse_amount_smart s = none)
    ∧ (∀ s : String, pyLower s = "nan" → parse_amount_smart s = none)
    ∧ (∀ s : String, pyFloat (normalizedOf s) = none → parse_amount_smart s = none) := by
  refine ⟨parse_eval_none_early (by decide), ?_, ?_, ?_⟩
  · intro s _ hsp
    have hsp' : ∀ c ∈ s.data, pyIsSpace c = true := hsp
    have h0 : pyStripList s.data = [] := strip_nil_of_all_space hsp'
    exact parse_eval_none_early (by simp [earlyNull, preStripped, h0])
  · intro s hlow
    have hdata : pyLowerList s.toList = "nan".toList := congrArg String.data hlow
    have hns : ∀ c ∈ s.toList, pyIsSpace c = false := by
      intro c hc
      by_contra hsp
      have hsp' : pyIsSpace c = true := by
        cases hb : pyIsSpace c
        · exact absurd hb hsp
        · rfl
      have hmem : Char.toLower c ∈ pyLowerList s.toList := List.mem_map_of_mem _ hc
      rw [hdata, space_toLower_self hsp'] at hmem
      have hmem2 : c ∈ ['n', 'a', 'n'] := hmem
      simp only [List.mem_cons, List.not_mem_nil, or_false] at hmem2
      rcases hmem2 with h | h | h <;> rw [h] at hsp' <;> exact absurd hsp' (by decide)
    have hns' : ∀ c ∈ s.data, pyIsSpace c = false := hns
    have h0 : pyStripList s.data = s.data := strip_of_no_space hns'
    have hdata' : pyLowerList s.data = ['n', 'a', 'n'] := hdata
    exact parse_eval_none_early (by simp [earlyNull, preStripped, h0, hdata'])
  · intro s hfl
    by_cases he : earlyNull s = true
    · exact parse_eval_none_early he
    · have he' : earlyNull s = false := by
        cases hb : earlyNull s
        · rfl
        · exact absurd hb he
      simp [parse_amount_smart, he', hfl]

/-- Witness for C4 at a whitespace-only input, a cased "nan" and a string
whose float conversion fails. -/
theorem c4_null_cases_witness :
    parse_amount_smart " " = none ∧ parse_amount_smart "NaN" = none
    ∧ parse_amount_smart "x2x" = none :=
  ⟨c4_null_cases.2.1 " " (by decide) (by decide),
   c4_null_cases.2.2.1 "NaN" (by decide),
   c4_null_cases.2.2.2 "x2x" (by decide)⟩


theorem notSpace_of_not_pySpace {c : Char} (h : pyIsSpace c = false) :
    notSpaceNbsp c = true := by
  by_contra hne
  have hf : notSpaceNbsp c = false := by
    cases hb : notSpaceNbsp c
    · rfl
    · exact absurd hb hne
  have hor : c = ' ' ∨ c = '\u00A0' := by
    by_contra hno
    push_neg at hno
    have hT : notSpaceNbsp c = true := by simp [notSpaceNbsp, hno.1, hno.2]
    rw [hT] at hf
    exact Bool.noConfusion hf
  rcases hor with h' | h' <;> subst h' <;> exact absurd h (by decide)

theorem pySpace_of_not_notSpace {c : Char} (h : notSpaceNbsp c = false) :
    pyIsSpace c = true := by
  have hor : c = ' ' ∨ c = '\u00A0' := by
    by_contra hno
    push_neg at hno
    have hT : notSpaceNbsp c = true := by simp [notSpaceNbsp, hno.1, hno.2]
    rw [hT] at h
    exact Bool.noConfusion h
  rcases hor with h' | h' <;> subst h' <;> decide

theorem filter_dropWhile_comm (x : List Char) :
    (x.dropWhile pyIsSpace).filter notSpaceNbsp
      = (x.filter notSpaceNbsp).dropWhile pyIsSpace := by
  induction x with
  | nil => rfl
  | cons a t ih =>
    rw [List.dropWhile_cons, List.filter_cons]
    by_cases hsp : pyIsSpace a = true
    · by_cases hfa : notSpaceNbsp a = true
      · rw [if_pos hsp, ih, if_pos hfa, List.dropWhile_cons, if_pos hsp]
      · have hfa' : notSpaceNbsp a = false := by
          cases hb : notSpaceNbsp a
          · rfl
          · exact absurd hb hfa
        rw [if_pos hsp, ih, hfa']
        simp
    · have hfa : notSpaceNbsp a = true :=
        notSpace_of_not_pySpace (by
          cases hb : pyIsSpace a
          · rfl
          · exact absurd hb hsp)
      rw [if_neg hsp, List.filter_cons, if_pos hfa, List.dropWhile_cons, if_neg hsp]

theorem strip_filter_comm {x : List Char} :
    pyStripList (x.filter notSpaceNbsp) = (pyStripList x).filter notSpaceNbsp := by
  unfold pyStripList
  rw [← filter_dropWhile_comm, ← List.filter_reverse, ← filter_dropWhile_comm,
    ← List.filter_reverse]

theorem filter_notSpace_idem {x : List Char} :
    (x.filter notSpaceNbsp).filter notSpaceNbsp = x.filter notSpaceNbsp :=
  List.filter_eq_self.mpr (fun a ha => (List.mem_filter.mp ha).2)

theorem dropWhile_head_false {p : Char → Bool} :
    ∀ {y : List Char} {c : Char} {r : List Char}, y.dropWhile p = c :: r → p c = false := by
  intro y
  induction y with
  | nil => intro c r h; exact List.noConfusion h
  | cons a t ih =>
    intro c r h
    rw [List.dropWhile_cons] at h
    by_cases hp : p a = true
    · exact ih (by simpa [hp] using h)
    · have hp' : p a = false := by
        cases hb : p a
        · rfl
        · exact absurd hb hp
      rw [if_neg (by simp [hp'])] at h
      injection h with h1 _
      subst h1
      exact hp'

theorem strip_head_not_space {x : List Char} {c : Char} {r : List Char}
    (h : pyStripList x = c :: r) : pyIsSpace c = false := by
  unfold pyStripList at h
  obtain ⟨t, ht⟩ := @List.dropWhile_suffix _ ((x.dropWhile pyIsSpace).reverse) pyIsSpace
  have ha : x.dropWhile pyIsSpace = c :: (r ++ t.reverse) := by
    have h2 : x.dropWhile pyIsSpace = ((x.dropWhile pyIsSpace).reverse).reverse :=
      (List.reverse_reverse _).symm
    rw [h2, ← ht, List.reverse_append, h]
    simp
  exact dropWhile_head_false ha

theorem nan_filter_eq_self {t : List Char} (h : pyLowerList t = "nan".toList) :
    t.filter notSpaceNbsp = t := by
  apply List.filter_eq_self.mpr
  intro c hc
  by_contra hne
  have hf : notSpaceNbsp c = false := by
    cases hb : notSpaceNbsp c
    · rfl
    · exact absurd hb hne
  have hsp : pyIsSpace c = true := pySpace_of_not_notSpace hf
  have hmem : Char.toLower c ∈ pyLowerList t := List.mem_map_of_mem _ hc
  rw [h, space_toLower_self hsp] at hmem
  have hmem2 : c ∈ ['n', 'a', 'n'] := hmem
  have hor : c = ' ' ∨ c = '\u00A0' := by
    by_contra hno
    push_neg at hno
    have hT : notSpaceNbsp c = true := by simp [notSpaceNbsp, hno.1, hno.2]
    rw [hT] at hf
    exact Bool.noConfusion hf
  rcases hor with h' | h' <;> subst h' <;> exact absurd hmem2 (by decide)

theorem parse_congr {s1 s2 : String}
    (he : earlyNull s1 = earlyNull s2)
    (hr : (preStripped s1).filter notSpaceNbsp = (preStripped s2).filter notSpaceNbsp) :
    parse_amount_smart s1 = parse_amount_smart s2 := by
  unfold parse_amount_smart normalizedOf signAndRest
  rw [he, hr]

/-- Counterexample to claim C5: the interior tab in "5\t5" is whitespace but
is not removed (only spaces and U+00A0 are), so the parse differs from the
whitespace-free "55"; and "n a n" with spaces removed spells "nan", yet the
two inputs parse differently (NaN versus null), so full whitespace-removal
invariance also fails around the nan check. -/
theorem c5_counterexample :
    ("5\t5".toList.filter (fun c => !pyIsSpace c) = "55".toList
      ∧ parse_amount_smart "5\t5" = none
      ∧ parse_amount_smart "55" = some (PyVal.finite (55 : ℚ))
      ∧ parse_amount_smart "5\t5" ≠ parse_amount_smart "55")
    ∧ ("n a n".toList.filter (fun c => !pyIsSpace c) = "nan".toList
      ∧ parse_amount_smart "n a n" = some PyVal.nan
      ∧ parse_amount_smart "nan" = none
      ∧ parse_amount_smart "n a n" ≠ parse_amount_smart "nan") := by
  have h55 : parse_amount_smart "55" = some (PyVal.finite (55 : ℚ)) := by
    rw [parse_eval_some 1 ("55".toList) (PySyn.num false 55 0 0 false 0) (by decide) (by decide) (by decide)]
    norm_num [pyMulSign, interpSyn]
  have htab : parse_amount_smart "5\t5" = none :=
    parse_eval_none_float (by decide) (by decide)
  have hnan3 : parse_amount_smart "n a n" = some PyVal.nan := by
    rw [parse_eval_some 1 ("nan".toList) (PySyn.nan) (by decide) (by decide) (by decide)]
    rfl
  have hnan : parse_amount_smart "nan" = none := parse_eval_none_early (by decide)
  refine ⟨⟨by decide, htab, h55, ?_⟩, ⟨by decide, hnan3, hnan, ?_⟩⟩
  · rw [htab, h55]
    exact fun h => Option.noConfusion h
  · rw [hnan3, hnan]
    exact fun h => Option.noConfusion h

/-- Claim C5 as amended: the parser strips leading and trailing whitespace,
then removes every space and no-break space; parsing is invariant under
removing all space and no-break-space characters from the input, provided
the trimmed space-stripped text is not "nan" (case-insensitively). -/
theorem c5_space_removal_invariance :
    ∀ s : String,
      pyLowerList ((pyStripList s.toList).filter notSpaceNbsp) ≠ "nan".toList →
      parse_amount_smart ⟨s.toList.filter notSpaceNbsp⟩ = parse_amount_smart s := by
  intro s hside
  have hts : preStripped s = pyStripList s.toList := rfl
  have hpre1 : preStripped ⟨s.toList.filter notSpaceNbsp⟩
      = (pyStripList s.toList).filter notSpaceNbsp := strip_filter_comm
  apply parse_congr
  · cases ht : pyStripList s.toList with
    | nil =>
      unfold earlyNull
      rw [hpre1, hts, ht]
      rfl
    | cons c0 r0 =>
      have hside' : pyLowerList ((c0 :: r0).filter notSpaceNbsp) ≠ "nan".toList := by
        rw [← ht]
        exact hside
      have hc0 : pyIsSpace c0 = false := strip_head_not_space ht
      have hkeep : notSpaceNbsp c0 = true := notSpace_of_not_pySpace hc0
      have hnan : pyLowerList (c0 :: r0) ≠ "nan".toList := fun hh =>
        hside' (by rw [nan_filter_eq_self hh, hh])
      have h1 : earlyNull ⟨s.toList.filter notSpaceNbsp⟩ = false := by
        unfold earlyNull
        rw [hpre1, ht, Bool.or_eq_false_iff]
        refine ⟨beq_eq_false_iff_ne.mpr ?_, beq_eq_false_iff_ne.mpr hside'⟩
        rw [List.filter_cons, if_pos hkeep]
        exact List.cons_ne_nil _ _
      have h2 : earlyNull s = false := by
        unfold earlyNull
        rw [hts, ht, Bool.or_eq_false_iff]
        exact ⟨beq_eq_false_iff_ne.mpr (List.cons_ne_nil _ _), beq_eq_false_iff_ne.mpr hnan⟩
      rw [h1, h2]
  · rw [hpre1, hts, filter_notSpace_idem]

/-- Witness for the amended C5 at a concrete spaced input. -/
theorem c5_space_removal_invariance_witness :
    parse_amount_smart ⟨"1 234,5".toList.filter notSpaceNbsp⟩
      = parse_amount_smart "1 234,5" :=
  c5_space_removal_invariance "1 234,5" (by decide)


theorem scanHeaderAux_some_iff :
    ∀ (rows : List (List String)) (i k : ℕ),
      scanHeaderAux i rows = some k ↔
        ∃ j, k = i + j ∧ j < rows.length ∧ i + j < 100
          ∧ 3 ≤ matchCount (rows.getD j [])
          ∧ ∀ j' < j, matchCount (rows.getD j' []) < 3 := by
  intro rows
  induction rows with
  | nil =>
    intro i k
    simp [scanHeaderAux]
  | cons row rest ih =>
    intro i k
    unfold scanHeaderAux
    by_cases h100 : i < 100
    · rw [if_pos h100]
      by_cases hm : 3 ≤ matchCount row
      · rw [if_pos hm]
        constructor
        · intro h
          injection h with h
          exact ⟨0, by omega, by simp, by omega, by simpa using hm, by omega⟩
        · rintro ⟨j, hk, hjlen, hj100, hjm, hfirst⟩
          cases j with
          | zero => simp [hk]
          | succ j' =>
            have h0 : matchCount ((row :: rest).getD 0 []) < 3 := hfirst 0 (Nat.succ_pos j')
            simp at h0
            omega
      · rw [if_neg hm]
        rw [ih (i + 1) k]
        constructor
        · rintro ⟨j, hk, hjlen, hj100, hjm, hfirst⟩
          refine ⟨j + 1, by omega, by simpa using hjlen, by omega, by simpa using hjm, ?_⟩
          intro j' hj'
          cases j' with
          | zero =>
            simp
            omega
          | succ j'' =>
            have := hfirst j'' (by omega)
            simpa using this
        · rintro ⟨j, hk, hjlen, hj100, hjm, hfirst⟩
          cases j with
          | zero =>
            simp at hjm
            omega
          | succ j' =>
            refine ⟨j', by omega, by simpa using hjlen, by omega, by simpa using hjm, ?_⟩
            intro j'' hj''
            have := hfirst (j'' + 1) (by omega)
            simpa using this
    · rw [if_neg h100]
      constructor
      · intro h
        exact Option.noConfusion h
      · rintro ⟨j, _, _, hj100, _, _⟩
        omega

theorem scanHeaderAux_take :
    ∀ (rows : List (List String)) (i : ℕ), i ≤ 100 →
      scanHeaderAux i rows = scanHeaderAux i (rows.take (100 - i)) := by
  intro rows
  induction rows with
  | nil =>
    intro i _
    simp
  | cons row rest ih =>
    intro i hi
    by_cases h100 : i < 100
    · have htake : (row :: rest).take (100 - i) = row :: rest.take (100 - (i + 1)) := by
        have h1 : 100 - i = (100 - (i + 1)) + 1 := by omega
        rw [h1, List.take_succ_cons]
      rw [htake]
      unfold scanHeaderAux
      rw [if_pos h100, if_pos h100]
      by_cases hm : 3 ≤ matchCount row
      · rw [if_pos hm, if_pos hm]
      · rw [if_neg hm, if_neg hm]
        exact ih (i + 1) (by omega)
    · have hi' : i = 100 := by omega
      subst hi'
      have htake : (100 : ℕ) - 100 = 0 := by omega
      rw [htake, List.take_zero]
      unfold scanHeaderAux
      rw [if_neg h100]

/-- Claim C6: the scan looks only at the first 100 rows, returns the first
row with at least 3 matched vocabulary tokens (later, stronger rows never
win), and the synthetic sheet whose row 5 is the header yields index 5. -/
theorem c6_header_first_match :
    (∀ sheet : List (List String), scanHeaderAux 0 sheet = scanHeaderAux 0 (sheet.take 100))
    ∧ (∀ (sheet : List (List String)) (k : ℕ),
        scanHeaderAux 0 sheet = some k ↔
          (k < min 100 sheet.length ∧ 3 ≤ matchCount (sheet.getD k [])
            ∧ ∀ j < k, matchCount (sheet.getD j []) < 3))
    ∧ locateHeader
        [["x"], ["x"], ["x"], ["x"], ["x"],
         ["Data", "Operazione", "Dettagli", "Importo"]] = 5 := by
  refine ⟨?_, ?_, by decide⟩
  · intro sheet
    simpa using scanHeaderAux_take sheet 0 (by omega)
  · intro sheet k
    rw [scanHeaderAux_some_iff sheet 0 k]
    constructor
    · rintro ⟨j, hk, hjlen, hj100, hjm, hfirst⟩
      have hkj : k = j := by omega
      subst hkj
      exact ⟨by omega, hjm, hfirst⟩
    · rintro ⟨hk, hm, hfirst⟩
      exact ⟨k, by omega, by omega, by omega, hm, hfirst⟩

/-- Claim C7: when no scanned row reaches 3 matches the locator returns the
fixed default row 19 when the sheet has at least 20 rows, else row 0; it is
a total function. -/
theorem c7_header_fallback :
    ∀ sheet : List (List String),
      (∀ j < min 100 sheet.length, matchCount (sheet.getD j []) < 3) →
      locateHeader sheet = if 20 ≤ sheet.length then 19 else 0 := by
  intro sheet h
  have hnone : scanHeaderAux 0 sheet = none := by
    cases hs : scanHeaderAux 0 sheet with
    | none => rfl
    | some k =>
      obtain ⟨j, hk, hjlen, hj100, hjm, _⟩ := (scanHeaderAux_some_iff sheet 0 k).mp hs
      have := h j (by omega)
      omega
  unfold locateHeader
  rw [hnone]

/-- Witness for C7 on an empty sheet and a 25-row sheet with no header. -/
theorem c7_header_fallback_witness :
    locateHeader ([] : List (List String)) = 0
    ∧ locateHeader (List.replicate 25 ["x"]) = 19 := by
  constructor
  · have h := c7_header_fallback [] (by intro j hj; simp at hj)
    simpa using h
  · have h := c7_header_fallback (List.replicate 25 ["x"]) (by decide)
    simpa using h


/-- Claim C9: every emitted record passes the yield guard: a non-null,
nonempty transaction date, a non-null amount and a nonempty description;
other rows are dropped, never failing the whole import (the output is a
filtered subset of the input rows). -/
theorem c9_emitted_records_valid :
    (∀ (toIso : String → String) (rows : List RawRow) (rec : TxRecord),
      rec ∈ parseRows toIso rows →
        (∃ d, rec.transaction_date = some d ∧ d ≠ "")
        ∧ rec.amount ≠ none ∧ rec.description ≠ "")
    ∧ ∀ (toIso : String → String) (rows : List RawRow),
        (parseRows toIso rows).length ≤ rows.length := by
  constructor
  · intro toIso rows rec hmem
    have hk : keepRecord rec = true := (List.mem_filter.mp hmem).2
    cases ht : rec.transaction_date with
    | none =>
      exfalso
      unfold keepRecord at hk
      rw [ht] at hk
      simp at hk
    | some d =>
      unfold keepRecord at hk
      rw [ht] at hk
      simp only [Bool.and_eq_true, Bool.not_eq_true', beq_eq_false_iff_ne] at hk
      refine ⟨⟨d, rfl, hk.1.1⟩, ?_, hk.2⟩
      intro hnone
      rw [hnone] at hk
      exact Bool.noConfusion hk.1.2
  · intro toIso rows
    calc (parseRows toIso rows).length
        ≤ (rows.map (buildRecord toIso)).length := List.length_filter_le _ _
      _ = rows.length := List.length_map _ _

def sampleRow : RawRow :=
  ⟨some "2024-01-02", some "POS purchase", none, none, none, none, some "5,00"⟩

/-- Witness for C9 on a one-row import that passes validation. -/
theorem c9_emitted_records_valid_witness :
    (∃ d, (buildRecord id sampleRow).transaction_date = some d ∧ d ≠ "")
    ∧ (buildRecord id sampleRow).amount ≠ none
    ∧ (buildRecord id sampleRow).description ≠ "" := by
  have hamt : (buildRecord id sampleRow).amount
      = some (pyMulSign 1 (interpSyn (PySyn.num false 5 0 2 false 0))) := by
    show parse_amount_smart "5,00" = _
    exact parse_eval_some 1 ("5,00".toList) (PySyn.num false 5 0 2 false 0)
      (by decide) (by decide) (by decide)
  have hmem : buildRecord id sampleRow ∈ parseRows id [sampleRow] := by
    apply List.mem_filter.mpr
    refine ⟨by simp [parseRows], ?_⟩
    unfold keepRecord
    rw [Bool.and_eq_true, Bool.and_eq_true]
    refine ⟨⟨by rfl, ?_⟩, by rfl⟩
    rw [hamt]
    rfl
  exact c9_emitted_records_valid.1 id [sampleRow] _ hmem


theorem digitsLE_eq_digits : ∀ (fuel n : ℕ), n ≤ fuel → digitsLE fuel n = Nat.digits 10 n := by
  intro fuel
  induction fuel with
  | zero =>
    intro n hn
    have h0 : n = 0 := by omega
    subst h0
    simp [digitsLE]
  | succ f ih =>
    intro n hn
    unfold digitsLE
    by_cases h0 : n = 0
    · subst h0
      simp
    · rw [if_neg h0, ih (n / 10) (by omega), ← Nat.digits_def' (by norm_num) (by omega)]

/-- Counterexample to claim C8: "1.000,0005" parses to 1000.0005, and its
fixed-point stringification "1000.0005" re-parses to 10000005 because the
four characters after the dot make it a thousands separator. -/
theorem c8_counterexample :
    parse_amount_smart "1.000,0005" = some (PyVal.finite (2000001 / 2000 : ℚ))
    ∧ renderFixed (2000001 / 2000 : ℚ) 4 = "1000.0005"
    ∧ parse_amount_smart "1000.0005" = some (PyVal.finite (10000005 : ℚ))
    ∧ (2000001 / 2000 : ℚ) ≠ (10000005 : ℚ) := by
  refine ⟨?_, ?_, ?_, by norm_num⟩
  · rw [parse_eval_some 1 ("1.000,0005".toList) (PySyn.num false 1000 5 4 false 0) (by decide) (by decide) (by decide)]
    norm_num [pyMulSign, interpSyn]
  · unfold renderFixed
    have h1 : decide ((2000001 / 2000 : ℚ) < 0) = false :=
      decide_eq_false (by norm_num)
    have h2 : |(2000001 / 2000 : ℚ)| * (10 : ℚ) ^ 4 = ((10000005 : ℤ) : ℚ) := by
      rw [abs_of_nonneg (by norm_num)]
      norm_num
    rw [h1, h2, Int.floor_intCast]
    decide
  · rw [parse_eval_some 1 ("1000.0005".toList) (PySyn.num false 10000005 0 0 false 0) (by decide) (by decide) (by decide)]
    norm_num [pyMulSign, interpSyn]


theorem pyIsSpace_cases {c : Char} (h : pyIsSpace c = true) :
    c = ' ' ∨ c = '\t' ∨ c = '\n' ∨ c = '\r' ∨ c = '\x0b' ∨ c = '\x0c' ∨ c = '\u00A0' := by
  by_contra hno
  push_neg at hno
  obtain ⟨h1, h2, h3, h4, h5, h6, h7⟩ := hno
  simp [pyIsSpace, h1, h2, h3, h4, h5, h6, h7] at h

theorem digit_char_toNat {d : ℕ} (hd : d < 10) : (Char.ofNat (48 + d)).toNat - 48 = d := by
  interval_cases d <;> decide

theorem digit_char_isDigit {d : ℕ} (hd : d < 10) : (Char.ofNat (48 + d)).isDigit = true := by
  interval_cases d <;> decide

theorem digit_not_space {c : Char} (h : c.isDigit = true) : pyIsSpace c = false := by
  cases hb : pyIsSpace c
  · rfl
  · rcases pyIsSpace_cases hb with h' | h' | h' | h' | h' | h' | h' <;>
      subst h' <;> exact absurd h (by decide)

theorem digit_ne_char {c x : Char} (h : c.isDigit = true) (hx : x.isDigit = false) :
    c ≠ x := by
  intro he
  subst he
  rw [h] at hx
  exact Bool.noConfusion hx

theorem natToDecChars_all_digits {n : ℕ} : ∀ c ∈ natToDecChars n, c.isDigit = true := by
  intro c hc
  unfold natToDecChars at hc
  by_cases h0 : n = 0
  · rw [if_pos h0] at hc
    have hc' : c = '0' := by simpa using hc
    subst hc'
    decide
  · rw [if_neg h0, digitsLE_eq_digits n n le_rfl] at hc
    rcases List.mem_map.mp hc with ⟨d, hdmem, hdc⟩
    have hd10 : d < 10 := Nat.digits_lt_base (by norm_num) (List.mem_reverse.mp hdmem)
    rw [← hdc]
    exact digit_char_isDigit hd10

theorem natToDecChars_ne_nil {n : ℕ} : natToDecChars n ≠ [] := by
  unfold natToDecChars
  by_cases h0 : n = 0
  · rw [if_pos h0]
    exact List.cons_ne_nil _ _
  · rw [if_neg h0, digitsLE_eq_digits n n le_rfl]
    intro h
    have h1 : (Nat.digits 10 n).reverse = [] := List.map_eq_nil_iff.mp h
    have h2 : Nat.digits 10 n = [] := List.reverse_eq_nil_iff.mp h1
    exact Nat.digits_ne_nil_iff_ne_zero.mpr h0 h2

theorem foldl_dec_digits :
    ∀ (L : List ℕ) (acc : ℕ), (∀ d ∈ L, d < 10) →
      List.foldl (fun a c => 10 * a + (c.toNat - 48)) acc
          (L.reverse.map fun d => Char.ofNat (48 + d))
        = acc * 10 ^ L.length + Nat.ofDigits 10 L := by
  intro L
  induction L with
  | nil =>
    intro acc _
    simp [Nat.ofDigits_nil]
  | cons d L' ih =>
    intro acc hall
    rw [List.reverse_cons, List.map_append, List.foldl_append,
      ih acc (fun x hx => hall x (List.mem_cons_of_mem d hx))]
    have hd10 : d < 10 := hall d (List.mem_cons_self d L')
    simp only [List.map_cons, List.map_nil, List.foldl_cons, List.foldl_nil,
      digit_char_toNat hd10, Nat.ofDigits_cons, List.length_cons]
    ring

theorem digitsToNat_natToDecChars (n : ℕ) : digitsToNat (natToDecChars n) = n := by
  unfold natToDecChars digitsToNat
  by_cases h0 : n = 0
  · rw [if_pos h0]
    subst h0
    decide
  · rw [if_neg h0, digitsLE_eq_digits n n le_rfl,
      foldl_dec_digits (Nat.digits 10 n) 0
        (fun d hd => Nat.digits_lt_base (by norm_num) hd),
      Nat.ofDigits_digits]
    ring

theorem digitsToNat_replicate_zero (z : ℕ) (l : List Char) :
    digitsToNat (List.replicate z '0' ++ l) = digitsToNat l := by
  unfold digitsToNat
  rw [List.foldl_append]
  congr 1
  induction z with
  | zero => rfl
  | succ z' ih => rw [List.replicate_succ, List.foldl_cons]; simpa using ih

theorem natToDecChars_length_le {n k : ℕ} (h : n < 10 ^ k) (hk : 1 ≤ k) :
    (natToDecChars n).length ≤ k := by
  unfold natToDecChars
  by_cases h0 : n = 0
  · rw [if_pos h0]
    simpa using hk
  · rw [if_neg h0, digitsLE_eq_digits n n le_rfl, List.length_map, List.length_reverse]
    by_contra hlen
    push_neg at hlen
    have hle := Nat.base_pow_length_digits_le 10 n (by norm_num) h0
    have h2 : (10 : ℕ) ^ (k + 1) ≤ 10 ^ (Nat.digits 10 n).length :=
      Nat.pow_le_pow_right (by norm_num) hlen
    have h3 : (10 : ℕ) ^ (k + 1) = 10 * 10 ^ k := by ring
    have h4 : 10 * 10 ^ k ≤ 10 * n := by omega
    have h5 : 10 ^ k ≤ n := Nat.le_of_mul_le_mul_left h4 (by norm_num)
    omega

theorem takeWhile_append_all {p : Char → Bool} :
    ∀ (a l : List Char), (∀ c ∈ a, p c = true) →
      (a ++ l).takeWhile p = a ++ l.takeWhile p := by
  intro a
  induction a with
  | nil => intro l _; rfl
  | cons x a' ih =>
    intro l hall
    rw [List.cons_append, List.takeWhile_cons, if_pos (by simp [hall x (List.mem_cons_self x a')]),
      ih l (fun c hc => hall c (List.mem_cons_of_mem x hc)), List.cons_append]

theorem dropWhile_append_all {p : Char → Bool} :
    ∀ (a l : List Char), (∀ c ∈ a, p c = true) →
      (a ++ l).dropWhile p = l.dropWhile p := by
  intro a
  induction a with
  | nil => intro l _; rfl
  | cons x a' ih =>
    intro l hall
    rw [List.cons_append, List.dropWhile_cons, if_pos (by simp [hall x (List.mem_cons_self x a')]),
      ih l (fun c hc => hall c (List.mem_cons_of_mem x hc))]

theorem takeWhile_all {p : Char → Bool} :
    ∀ (l : List Char), (∀ c ∈ l, p c = true) → l.takeWhile p = l := by
  intro l hall
  have h := takeWhile_append_all l [] hall
  simpa using h

theorem dropWhile_all {p : Char → Bool} :
    ∀ (l : List Char), (∀ c ∈ l, p c = true) → l.dropWhile p = [] := by
  intro l hall
  have h := dropWhile_append_all l [] hall
  simpa using h

theorem lastIdxOf_append_single {c : Char} :
    ∀ (pre post : List Char), c ∉ pre → c ∉ post →
      lastIdxOf c (pre ++ c :: post) = some pre.length := by
  intro pre
  induction pre with
  | nil =>
    intro post _ hpost
    rw [List.nil_append]
    unfold lastIdxOf
    rw [lastIdxOf_eq_none.mpr hpost]
    simp
  | cons a pre' ih =>
    intro post hpre hpost
    rw [List.cons_append]
    unfold lastIdxOf
    rw [ih post (fun h => hpre (List.mem_cons_of_mem a h)) hpost]
    simp

theorem toList_mk (l : List Char) : (⟨l⟩ : String).toList = l := rfl

theorem pyFloatSyn_core (ichars fchars : List Char)
    (hidig : ∀ c ∈ ichars, c.isDigit = true)
    (hfdig : ∀ c ∈ fchars, c.isDigit = true)
    (hin : ichars ≠ []) (hfne : fchars ≠ []) :
    pyFloatSyn ⟨ichars ++ '.' :: fchars⟩
      = some (PySyn.num false (digitsToNat ichars) (digitsToNat fchars)
          fchars.length false 0) := by
  obtain ⟨c0, ic', hic⟩ : ∃ c0 ic', ichars = c0 :: ic' := by
    cases ichars with
    | nil => exact absurd rfl hin
    | cons a t => exact ⟨a, t, rfl⟩
  have hc0d : c0.isDigit = true := hidig c0 (by rw [hic]; exact List.mem_cons_self _ _)
  have hfd_core : ∀ c ∈ ichars ++ '.' :: fchars, pyIsSpace c = false := by
    intro c hc
    rcases List.mem_append.mp hc with h | h
    · exact digit_not_space (hidig c h)
    · rcases List.mem_cons.mp h with h | h
      · subst h; decide
      · exact digit_not_space (hfdig c h)
  have hstrip : pyStripList (ichars ++ '.' :: fchars) = ichars ++ '.' :: fchars :=
    strip_of_no_space hfd_core
  have hhead : (ichars ++ '.' :: fchars).head? = some c0 := by
    rw [hic]
    rfl
  have hdot_mem : '.' ∈ ichars ++ '.' :: fchars :=
    List.mem_append_right _ (List.mem_cons_self _ _)
  have hlow_ne : ∀ target : List Char, '.' ∉ target →
      pyLowerList (ichars ++ '.' :: fchars) ≠ target := by
    intro target hnd h
    have hm : Char.toLower '.' ∈ pyLowerList (ichars ++ '.' :: fchars) :=
      List.mem_map_of_mem _ hdot_mem
    rw [h] at hm
    exact hnd (by simpa using hm)
  have hsgn : ¬ ((ichars ++ '.' :: fchars).head? = some '+'
      ∨ (ichars ++ '.' :: fchars).head? = some '-') := by
    rw [hhead]
    rintro (h | h) <;> rw [show c0 = _ from Option.some.inj h] at hc0d <;>
      exact Bool.noConfusion hc0d
  have hneg : decide ((ichars ++ '.' :: fchars).head? = some '-') = false := by
    apply decide_eq_false
    intro h
    exact hsgn (Or.inr h)
  -- the decimal literal
  have hip : (ichars ++ '.' :: fchars).takeWhile Char.isDigit = ichars := by
    rw [takeWhile_append_all _ _ hidig, List.takeWhile_cons, if_neg (by decide)]
    exact List.append_nil _
  have hr1 : (ichars ++ '.' :: fchars).dropWhile Char.isDigit = '.' :: fchars := by
    rw [dropWhile_append_all _ _ hidig, List.dropWhile_cons, if_neg (by decide)]
  simp only [pyFloatSyn, toList_mk, hstrip]
  rw [if_neg hsgn]
  have hinf : ¬(pyLowerList (ichars ++ '.' :: fchars) = "inf".toList
      ∨ pyLowerList (ichars ++ '.' :: fchars) = "infinity".toList) := by
    rintro (h | h)
    · exact hlow_ne _ (by decide) h
    · exact hlow_ne _ (by decide) h
  rw [if_neg hinf, if_neg (hlow_ne "nan".toList (by decide)), hneg]
  simp only [parseDecSyn, hip, hr1, takeWhile_all fchars hfdig, dropWhile_all fchars hfdig]
  rw [if_neg (fun h => hin h.1)]

end Doubloon

namespace Doubloon

theorem normSep_core (ichars fchars : List Char) (k : ℕ)
    (hk1 : 1 ≤ k) (hk3 : k ≤ 3)
    (hidig : ∀ c ∈ ichars, c.isDigit = true)
    (hfdig : ∀ c ∈ fchars, c.isDigit = true)
    (hflen : fchars.length = k) :
    normalizeSeparators (ichars ++ '.' :: fchars) = ichars ++ '.' :: fchars := by
  have hnd_i : '.' ∉ ichars := fun h => absurd (hidig '.' h) (by decide)
  have hnd_f : '.' ∉ fchars := fun h => absurd (hfdig '.' h) (by decide)
  have hnc_i : ',' ∉ ichars := fun h => absurd (hidig ',' h) (by decide)
  have hnc_f : ',' ∉ fchars := fun h => absurd (hfdig ',' h) (by decide)
  have hnc : ',' ∉ ichars ++ '.' :: fchars := by
    intro h
    rcases List.mem_append.mp h with h | h
    · exact hnc_i h
    · rcases List.mem_cons.mp h with h | h
      · exact absurd h (by decide)
      · exact hnc_f h
  have hlast : lastIdxOf '.' (ichars ++ '.' :: fchars) = some ichars.length :=
    lastIdxOf_append_single ichars fchars hnd_i hnd_f
  have hnone : lastIdxOf ',' (ichars ++ '.' :: fchars) = none :=
    lastIdxOf_eq_none.mpr hnc
  have hcount : (ichars ++ '.' :: fchars).count '.' = 1 := by
    rw [List.count_append, List.count_eq_zero.mpr hnd_i, List.count_cons,
      List.count_eq_zero.mpr hnd_f]
    simp
  have hlen : (ichars ++ '.' :: fchars).length - ichars.length - 1 = k := by
    rw [List.length_append, List.length_cons, hflen]
    omega
  unfold normalizeSeparators
  rw [hlast, hnone]
  show singleSepKind '.' ichars.length (ichars ++ '.' :: fchars) = _
  unfold singleSepKind
  rw [hcount, if_neg (by norm_num), hlen, if_pos ⟨hk1, hk3⟩, if_neg (by decide)]

theorem stripSigns_noSign (l : List Char)
    (hh : ∀ x : Char, l.head? = some x → x ≠ '+' ∧ x ≠ '-')
    (ht : l.getLast? ≠ some '-') :
    stripSigns l = (1, l) := by
  have h1 : l.head? ≠ some '+' := by
    intro h
    cases hl : l.head? with
    | none => rw [hl] at h; exact Option.noConfusion h
    | some x => rw [hl] at h; exact (hh x hl).1 (Option.some.inj h)
  have h2 : l.head? ≠ some '-' := by
    intro h
    cases hl : l.head? with
    | none => rw [hl] at h; exact Option.noConfusion h
    | some x => rw [hl] at h; exact (hh x hl).2 (Option.some.inj h)
  simp only [stripSigns]
  rw [if_neg h1, if_neg h2]
  show (if l.getLast? = some '-' then (-(1 : ℤ), l.dropLast) else ((1 : ℤ), l)) = ((1 : ℤ), l)
  rw [if_neg ht]

theorem stripSigns_negSign (l : List Char) (ht : l.getLast? ≠ some '-') :
    stripSigns ('-' :: l) = (-1, l) := by
  simp only [stripSigns]
  rw [if_neg (show ¬('-' :: l).head? = some '+' by
      intro h
      exact absurd (Option.some.inj h) (by decide)),
    if_pos (show ('-' :: l).head? = some '-' from rfl)]
  show (if l.getLast? = some '-' then (-(-1 : ℤ), l.dropLast) else ((-1 : ℤ), l)) = (-1, l)
  rw [if_neg ht]

end Doubloon

namespace Doubloon

theorem parse_fixed_core (b : Bool) (ichars fchars : List Char) (k : ℕ)
    (hk1 : 1 ≤ k) (hk3 : k ≤ 3)
    (hidig : ∀ c ∈ ichars, c.isDigit = true)
    (hfdig : ∀ c ∈ fchars, c.isDigit = true)
    (hin : ichars ≠ [])
    (hflen : fchars.length = k) :
    parse_amount_smart ⟨(if b then ['-'] else []) ++ (ichars ++ '.' :: fchars)⟩
      = some (PyVal.finite ((if b then (-1 : ℚ) else 1) *
          ((digitsToNat ichars : ℚ) + (digitsToNat fchars : ℚ) / 10 ^ k))) := by
  have hfne : fchars ≠ [] := by
    intro h
    rw [h] at hflen
    simp at hflen
    omega
  obtain ⟨c0, ic', hic⟩ : ∃ c0 ic', ichars = c0 :: ic' := by
    cases ichars with
    | nil => exact absurd rfl hin
    | cons a t => exact ⟨a, t, rfl⟩
  have hc0d : c0.isDigit = true := hidig c0 (by rw [hic]; exact List.mem_cons_self _ _)
  obtain ⟨y, hy⟩ : ∃ y, fchars.getLast? = some y := by
    cases hfc : fchars.getLast? with
    | some y => exact ⟨y, rfl⟩
    | none => exact absurd (List.getLast?_eq_none_iff.mp hfc) hfne
  have hyd : y.isDigit = true := hfdig y (List.mem_of_getLast?_eq_some hy)
  have hfd_core : ∀ c ∈ ichars ++ '.' :: fchars, pyIsSpace c = false := by
    intro c hc
    rcases List.mem_append.mp hc with h | h
    · exact digit_not_space (hidig c h)
    · rcases List.mem_cons.mp h with h | h
      · subst h; decide
      · exact digit_not_space (hfdig c h)
  have hall : ∀ c ∈ (if b then ['-'] else []) ++ (ichars ++ '.' :: fchars),
      pyIsSpace c = false := by
    intro c hc
    rcases List.mem_append.mp hc with h | h
    · cases b
      · simp at h
      · have hc' : c = '-' := by simpa using h
        subst hc'
        decide
    · exact hfd_core c h
  have hcne : ichars ++ '.' :: fchars ≠ [] := by
    intro h
    exact List.noConfusion (List.append_eq_nil.mp h).2
  have hfullne : (if b then ['-'] else []) ++ (ichars ++ '.' :: fchars) ≠ [] := by
    intro h
    exact hcne (List.append_eq_nil.mp h).2
  have hdot_full : '.' ∈ (if b then ['-'] else []) ++ (ichars ++ '.' :: fchars) :=
    List.mem_append_right _ (List.mem_append_right _ (List.mem_cons_self _ _))
  have hpre : preStripped ⟨(if b then ['-'] else []) ++ (ichars ++ '.' :: fchars)⟩
      = (if b then ['-'] else []) ++ (ichars ++ '.' :: fchars) := strip_of_no_space hall
  have hearly : earlyNull ⟨(if b then ['-'] else []) ++ (ichars ++ '.' :: fchars)⟩ = false := by
    unfold earlyNull
    rw [hpre, Bool.or_eq_false_iff]
    refine ⟨beq_eq_false_iff_ne.mpr hfullne, beq_eq_false_iff_ne.mpr ?_⟩
    intro h
    have hm : Char.toLower '.' ∈
        pyLowerList ((if b then ['-'] else []) ++ (ichars ++ '.' :: fchars)) :=
      List.mem_map_of_mem _ hdot_full
    rw [h] at hm
    have ht : Char.toLower '.' = '.' := by decide
    rw [ht] at hm
    exact absurd hm (by decide)
  have hfilter : ((if b then ['-'] else []) ++ (ichars ++ '.' :: fchars)).filter notSpaceNbsp
      = (if b then ['-'] else []) ++ (ichars ++ '.' :: fchars) :=
    List.filter_eq_self.mpr (fun c hc => notSpace_of_not_pySpace (hall c hc))
  have hlast_core : (ichars ++ '.' :: fchars).getLast? = some y := by
    rw [List.getLast?_append]
    have h2 : ('.' :: fchars).getLast? = some y := by
      rw [show ('.' :: fchars) = ['.'] ++ fchars from rfl, List.getLast?_append, hy]
      rfl
    rw [h2]
    rfl
  have hlastne : (ichars ++ '.' :: fchars).getLast? ≠ some '-' := by
    rw [hlast_core]
    intro h
    rw [show y = '-' from Option.some.inj h] at hyd
    exact Bool.noConfusion hyd
  have hsr : signAndRest ⟨(if b then ['-'] else []) ++ (ichars ++ '.' :: fchars)⟩
      = ((if b then (-1 : ℤ) else 1), ichars ++ '.' :: fchars) := by
    unfold signAndRest
    rw [hpre, hfilter]
    cases b
    · rw [if_neg (Bool.false_ne_true), if_neg (Bool.false_ne_true), List.nil_append]
      apply stripSigns_noSign
      · intro x hx
        rw [hic] at hx
        have hx2 : some c0 = some x := hx
        have hxc : x = c0 := (Option.some.inj hx2).symm
        subst hxc
        constructor
        · intro he
          rw [he] at hc0d
          exact Bool.noConfusion hc0d
        · intro he
          rw [he] at hc0d
          exact Bool.noConfusion hc0d
      · exact hlastne
    · rw [if_pos rfl, if_pos rfl,
        show (['-'] ++ (ichars ++ '.' :: fchars)) = '-' :: (ichars ++ '.' :: fchars) from rfl]
      exact stripSigns_negSign _ hlastne
  have hnorm : normalizedOf ⟨(if b then ['-'] else []) ++ (ichars ++ '.' :: fchars)⟩
      = ⟨ichars ++ '.' :: fchars⟩ := by
    unfold normalizedOf
    rw [hsr]
    show (⟨normalizeSeparators (ichars ++ '.' :: fchars)⟩ : String) = _
    rw [normSep_core ichars fchars k hk1 hk3 hidig hfdig hflen]
  have hsyn : pyFloatSyn
      (normalizedOf ⟨(if b then ['-'] else []) ++ (ichars ++ '.' :: fchars)⟩)
      = some (PySyn.num false (digitsToNat ichars) (digitsToNat fchars) k false 0) := by
    rw [hnorm, pyFloatSyn_core ichars fchars hidig hfdig hin hfne, hflen]
  rw [parse_eval_some _ _ _ hearly hsr hsyn]
  cases b
  · simp only [pyMulSign, interpSyn, if_neg (Bool.false_ne_true)]
    norm_num
  · simp only [pyMulSign, interpSyn, if_pos rfl]
    norm_num

end Doubloon

namespace Doubloon

theorem parse_renderNatFixed (b : Bool) (N k : ℕ) (hk1 : 1 ≤ k) (hk3 : k ≤ 3) :
    parse_amount_smart (renderNatFixed b N k)
      = some (PyVal.finite ((if b then (-1 : ℚ) else 1) * ((N : ℚ) / 10 ^ k))) := by
  have hflen : (List.replicate (k - (natToDecChars (N % 10 ^ k)).length) '0'
      ++ natToDecChars (N % 10 ^ k)).length = k := by
    rw [List.length_append, List.length_replicate]
    have hlt : N % 10 ^ k < 10 ^ k := Nat.mod_lt _ (by positivity)
    have hle := natToDecChars_length_le hlt hk1
    omega
  have hfdig : ∀ c ∈ List.replicate (k - (natToDecChars (N % 10 ^ k)).length) '0'
      ++ natToDecChars (N % 10 ^ k), c.isDigit = true := by
    intro c hc
    rcases List.mem_append.mp hc with h | h
    · rw [List.eq_of_mem_replicate h]
      decide
    · exact natToDecChars_all_digits c h
  have hmain := parse_fixed_core b (natToDecChars (N / 10 ^ k))
    (List.replicate (k - (natToDecChars (N % 10 ^ k)).length) '0'
      ++ natToDecChars (N % 10 ^ k))
    k hk1 hk3 (fun c hc => natToDecChars_all_digits c hc) hfdig
    natToDecChars_ne_nil hflen
  have hrender : renderNatFixed b N k
      = ⟨(if b then ['-'] else []) ++ (natToDecChars (N / 10 ^ k) ++ '.' ::
          (List.replicate (k - (natToDecChars (N % 10 ^ k)).length) '0'
            ++ natToDecChars (N % 10 ^ k)))⟩ := by
    unfold renderNatFixed
    show (⟨(if b then ['-'] else []) ++ natToDecChars (N / 10 ^ k) ++ '.' ::
        (List.replicate (k - (natToDecChars (N % 10 ^ k)).length) '0'
          ++ natToDecChars (N % 10 ^ k))⟩ : String) = _
    congr 1
    rw [List.append_assoc]
  rw [hrender, hmain, digitsToNat_natToDecChars, digitsToNat_replicate_zero,
    digitsToNat_natToDecChars]
  have h0 : ((10 : ℚ) ^ k) ≠ 0 := by positivity
  have hval : ((N / 10 ^ k : ℕ) : ℚ) + ((N % 10 ^ k : ℕ) : ℚ) / 10 ^ k
      = (N : ℚ) / 10 ^ k := by
    rw [eq_div_iff h0, add_mul, div_mul_cancel₀ _ h0]
    have hnm : N / 10 ^ k * 10 ^ k + N % 10 ^ k = N := by
      rw [Nat.mul_comm]
      exact Nat.div_add_mod N (10 ^ k)
    exact_mod_cast hnm
  rw [hval]

/-- Claim C8 as amended: for every input on which the parser returns a
finite value with a fixed-point rendering of 1 to 3 fractional digits,
re-parsing that rendering returns the same value. -/
theorem c8_reparse_fixed :
    ∀ (s : String) (q : ℚ) (k : ℕ),
      parse_amount_smart s = some (PyVal.finite q) →
      1 ≤ k → k ≤ 3 → (q * 10 ^ k).den = 1 →
      parse_amount_smart (renderFixed q k) = some (PyVal.finite q) := by
  intro s q k _ hk1 hk3 hden
  have h10 : (0 : ℚ) < 10 ^ k := by positivity
  have hzq : (((q * 10 ^ k).num : ℤ) : ℚ) = q * 10 ^ k :=
    Rat.coe_int_num_of_den_eq_one hden
  have habs : |q| * 10 ^ k = ((q * 10 ^ k).num.natAbs : ℚ) := by
    have h1 : |q| * 10 ^ k = |(((q * 10 ^ k).num : ℤ) : ℚ)| := by
      rw [hzq, abs_mul, abs_of_pos h10]
    rw [h1, Int.cast_natAbs, Int.cast_abs]
  have hfloor : (⌊|q| * (10 : ℚ) ^ k⌋).toNat = (q * 10 ^ k).num.natAbs := by
    rw [habs, Int.floor_natCast]
    exact Int.toNat_ofNat _
  unfold renderFixed
  rw [hfloor, parse_renderNatFixed _ _ _ hk1 hk3]
  have hqval : (((q * 10 ^ k).num.natAbs : ℕ) : ℚ) / 10 ^ k = |q| := by
    rw [← habs]
    field_simp
  congr 2
  by_cases hneg : q < 0
  · rw [if_pos (decide_eq_true hneg), hqval, abs_of_neg hneg]
    ring
  · rw [if_neg (fun h => hneg (of_decide_eq_true h)), hqval,
      abs_of_nonneg (le_of_not_lt hneg)]
    ring

/-- Witness for the amended C8 at a concrete parse-and-rerender round trip. -/
theorem c8_reparse_fixed_witness :
    parse_amount_smart (renderFixed (2500 : ℚ) 1) = some (PyVal.finite (2500 : ℚ)) := by
  apply c8_reparse_fixed "2500,00" 2500 1
  · rw [parse_eval_some 1 ("2500,00".toList) (PySyn.num false 2500 0 2 false 0) (by decide) (by decide) (by decide)]
    norm_num [pyMulSign, interpSyn]
  · norm_num
  · norm_num
  · norm_num

end Doubloon
